import Mathlib

/-!
A verification development for the portfolio valuation engine of the
stock-portfolio-dashboard repository (`src/lib/portfolioCalculations.ts`).

Modelling conventions:
* JavaScript numbers are modelled as exact rationals (`ℚ`); `Math.round`
  is modelled as `x ↦ ⌊x + 1/2⌋`, its behaviour on finite values.
* `Map<string, V>` (insertion-ordered, as JS `Map` iteration is) is
  modelled as an association list `List (String × V)`; `Map.set` replaces
  in place or appends, `Map.delete` removes, `forEach` folds in list order.
* `'buy' | 'sell'` is the inductive `TransactionType`.
* `Array.prototype.sort` (stable in modern engines) is modelled by
  `List.insertionSort`, which is stable.
-/

inductive TransactionType where
  | buy : TransactionType
  | sell : TransactionType
deriving DecidableEq, Repr

/-- `TradeRecord` from `src/types/portfolio.ts`. -/
structure TradeRecord where
  date : String
  symbol : String
  quantity : ℚ
  price : ℚ
  transactionType : TransactionType
deriving DecidableEq, Repr

/-- `StockPrice` from `src/types/portfolio.ts`; the core only reads `price`. -/
structure StockPrice where
  price : ℚ
  change : ℚ
  changePercent : ℚ
  timestamp : ℚ
deriving DecidableEq, Repr

/-- Accumulator value of the `holdings` map in `calculateHoldings`. -/
structure HoldingAcc where
  quantity : ℚ
  totalCost : ℚ
  trades : List TradeRecord
deriving DecidableEq, Repr

/-- Accumulator value of the `holdings` map in `calculatePortfolioGrowthOverTime`. -/
structure Position where
  quantity : ℚ
  totalCost : ℚ
deriving DecidableEq, Repr

/-- `Holding` output record from `src/types/portfolio.ts`. -/
structure Holding where
  symbol : String
  quantity : ℚ
  averagePrice : ℚ
  investedValue : ℚ
  currentValue : ℚ
  pnl : ℚ
  pnlPercent : ℚ
deriving DecidableEq, Repr

/-- Result record of `calculatePnL`. -/
structure PnL where
  absolute : ℚ
  percentage : ℚ
deriving DecidableEq, Repr

/-- `PortfolioSummary` output record from `src/types/portfolio.ts`. -/
structure PortfolioSummary where
  totalInvested : ℚ
  totalCurrentValue : ℚ
  totalPnL : ℚ
  totalPnLPercent : ℚ
  holdings : List Holding
deriving DecidableEq, Repr

/-- A growth-chart point `{date, value}` of `calculatePortfolioGrowthOverTime`. -/
structure GrowthPoint where
  date : String
  value : ℚ
deriving DecidableEq, Repr

/-- JS `Map.get`: first (only, under key-uniqueness) binding of the key. -/
def mapGet {α : Type} (m : List (String × α)) (k : String) : Option α :=
  match m.find? (fun e => decide (e.1 = k)) with
  | some e => some e.2
  | none => none

/-- JS `Map.set`: replace in place when the key is bound (the maps built
here never bind a key twice, so replacing the first binding is replacing
the binding), else append at the end. -/
def mapSet {α : Type} : List (String × α) → String → α → List (String × α)
  | [], k, v => [(k, v)]
  | e :: m, k, v => if e.1 = k then (k, v) :: m else e :: mapSet m k v

/-- JS `Map.delete`: remove the key's binding. -/
def mapDelete {α : Type} (m : List (String × α)) (k : String) :
    List (String × α) :=
  m.filter (fun e => decide (e.1 ≠ k))

/-- `Math.round(x * 100) / 100`: round to cents. JS `Math.round` on finite
values is `⌊x + 1/2⌋` (halves toward `+∞`). -/
def round2 (x : ℚ) : ℚ :=
  (⌊x * 100 + 1 / 2⌋ : ℤ) / 100

/-- Round to cents with halves away from zero, as the spec's rounding
policy describes it. Spec-side definition, for comparison with `round2`. -/
def roundHalfAway2 (x : ℚ) : ℚ :=
  if 0 ≤ x then (⌊x * 100 + 1 / 2⌋ : ℤ) / 100
  else -((⌊-x * 100 + 1 / 2⌋ : ℤ) / 100 : ℚ)

/-- The per-trade update of `calculateHoldings` (`quantity`/`totalCost`
fields; the trade is pushed onto `trades` afterwards by `processTrade`). -/
def applyTrade (acc : HoldingAcc) (t : TradeRecord) : HoldingAcc :=
  match t.transactionType with
  | .buy =>
      { acc with
        quantity := acc.quantity + t.quantity
        totalCost := acc.totalCost + t.quantity * t.price }
  | .sell =>
      let avgCostPerShare := if acc.quantity > 0 then acc.totalCost / acc.quantity else 0
      let costToReduce := t.quantity * avgCostPerShare
      { acc with
        quantity := acc.quantity - t.quantity
        totalCost := acc.totalCost - costToReduce }

/-- The full per-trade update of one symbol's accumulator: the `buy`/`sell`
branch of `calculateHoldings` followed by `existing.trades.push(trade)`. -/
def tradeStep (acc : HoldingAcc) (t : TradeRecord) : HoldingAcc :=
  { applyTrade acc t with trades := (applyTrade acc t).trades ++ [t] }

/-- One iteration of the `tradeHistory.forEach` loop of `calculateHoldings`. -/
def processTrade (m : List (String × HoldingAcc)) (t : TradeRecord) :
    List (String × HoldingAcc) :=
  let existing := (mapGet m t.symbol).getD ⟨0, 0, []⟩
  mapSet m t.symbol (tradeStep existing t)

/-- The raw `holdings` accumulator map of `calculateHoldings`, before the
final quantity filter. -/
def rawHoldings (tradeHistory : List TradeRecord) : List (String × HoldingAcc) :=
  tradeHistory.foldl processTrade []

/-- `calculateHoldings`: fold the ledger, then keep only strictly positive
quantities (`filteredHoldings`). -/
def calculateHoldings (tradeHistory : List TradeRecord) :
    List (String × HoldingAcc) :=
  (rawHoldings tradeHistory).filter (fun e => decide (e.2.quantity > 0))

/-- `calculateAveragePrice`. -/
def calculateAveragePrice (symbol : String) (trades : List TradeRecord) : ℚ :=
  let symbolTrades := trades.filter
    (fun t => decide (t.symbol = symbol) && decide (t.transactionType = .buy))
  if symbolTrades.length = 0 then 0
  else
    let totalQuantity := symbolTrades.foldl (fun sum t => sum + t.quantity) 0
    let totalValue := symbolTrades.foldl (fun sum t => sum + t.quantity * t.price) 0
    if totalQuantity > 0 then totalValue / totalQuantity else 0

/-- `calculateInvestedValue`: total cost of every `buy` in the full ledger. -/
def calculateInvestedValue (tradeHistory : List TradeRecord) : ℚ :=
  (tradeHistory.filter (fun t => decide (t.transactionType = .buy))).foldl
    (fun total t => total + t.quantity * t.price) 0

/-- `calculateCurrentValue`: sum `quantity × price` over holdings that have
a live quote and positive quantity. -/
def calculateCurrentValue (livePrices : List (String × StockPrice))
    (holdings : List (String × HoldingAcc)) : ℚ :=
  holdings.foldl
    (fun totalValue e =>
      match mapGet livePrices e.1 with
      | some currentPrice =>
          if e.2.quantity > (0 : ℚ) then totalValue + e.2.quantity * currentPrice.price
          else totalValue
      | none => totalValue)
    (0 : ℚ)

/-- `calculatePnL`. -/
def calculatePnL (investedValue currentValue : ℚ) : PnL :=
  let absolute := currentValue - investedValue
  let percentage := if investedValue > 0 then absolute / investedValue * 100 else 0
  ⟨round2 absolute, round2 percentage⟩

/-- The `Holding` record built for one holdings-map entry inside
`calculatePortfolioSummary`. -/
def mkHolding (livePrices : List (String × StockPrice))
    (e : String × HoldingAcc) : Holding :=
  let currentPrice := mapGet livePrices e.1
  let averagePrice := if e.2.quantity > 0 then e.2.totalCost / e.2.quantity else 0
  let currentValue := match currentPrice with
    | some cp => e.2.quantity * cp.price
    | none => 0
  let investedValue := e.2.totalCost
  let stockPnL := calculatePnL investedValue currentValue
  { symbol := e.1
    quantity := e.2.quantity
    averagePrice := round2 averagePrice
    investedValue := round2 investedValue
    currentValue := round2 currentValue
    pnl := stockPnL.absolute
    pnlPercent := stockPnL.percentage }

/-- `calculatePortfolioSummary`. -/
def calculatePortfolioSummary (tradeHistory : List TradeRecord)
    (livePrices : List (String × StockPrice)) : PortfolioSummary :=
  let holdings := calculateHoldings tradeHistory
  let totalInvested := calculateInvestedValue tradeHistory
  let totalCurrentValue := calculateCurrentValue livePrices holdings
  let pnl := calculatePnL totalInvested totalCurrentValue
  let holdingsArray := holdings.map (mkHolding livePrices)
  let sorted := holdingsArray.insertionSort
    (fun a b => b.currentValue ≤ a.currentValue)
  { totalInvested := round2 totalInvested
    totalCurrentValue := round2 totalCurrentValue
    totalPnL := pnl.absolute
    totalPnLPercent := pnl.percentage
    holdings := sorted }

/-- The per-trade update of the running map in
`calculatePortfolioGrowthOverTime`: same average-cost accounting as
`calculateHoldings`, then keep the symbol only while its quantity is
strictly positive. -/
def applyGrowthTrade (m : List (String × Position)) (t : TradeRecord) :
    List (String × Position) :=
  let existing := (mapGet m t.symbol).getD ⟨0, 0⟩
  let updated : Position :=
    match t.transactionType with
    | .buy =>
        ⟨existing.quantity + t.quantity,
         existing.totalCost + t.quantity * t.price⟩
    | .sell =>
        let avgCostPerShare :=
          if existing.quantity > 0 then existing.totalCost / existing.quantity else 0
        ⟨existing.quantity - t.quantity,
         existing.totalCost - t.quantity * avgCostPerShare⟩
  if updated.quantity > 0 then mapSet m t.symbol updated
  else mapDelete m t.symbol

/-- Portfolio value at current prices: the summation loop at the end of
each date iteration of `calculatePortfolioGrowthOverTime`. -/
def portfolioValueAt (livePrices : List (String × StockPrice))
    (m : List (String × Position)) : ℚ :=
  m.foldl
    (fun portfolioValue e =>
      match mapGet livePrices e.1 with
      | some currentPrice =>
          if e.2.quantity > (0 : ℚ) then portfolioValue + e.2.quantity * currentPrice.price
          else portfolioValue
      | none => portfolioValue)
    (0 : ℚ)

/-- The ascending list of distinct trade dates walked by
`calculatePortfolioGrowthOverTime`. The source groups the date-sorted
trades by their date string and sorts the keys lexicographically
(`Array.from(tradesByDate.keys()).sort()`); which duplicate occurrence
survives grouping is irrelevant once the keys are sorted. -/
def growthDates (tradeHistory : List TradeRecord) : List String :=
  ((tradeHistory.map (fun t => t.date)).dedup).insertionSort (· ≤ ·)

/-- One date iteration of `calculatePortfolioGrowthOverTime`: apply the
date's trades (in ledger order, which the stable date sort preserves
within one date) to the running map, then append that date's point. -/
def growthStep (tradeHistory : List TradeRecord)
    (livePrices : List (String × StockPrice))
    (st : List (String × Position) × List GrowthPoint) (d : String) :
    List (String × Position) × List GrowthPoint :=
  let dayTrades := tradeHistory.filter (fun t => decide (t.date = d))
  let m := dayTrades.foldl applyGrowthTrade st.1
  (m, st.2 ++ [⟨d, round2 (portfolioValueAt livePrices m)⟩])

/-- The full date walk of `calculatePortfolioGrowthOverTime`: final running
map paired with the accumulated growth points. -/
def growthFold (tradeHistory : List TradeRecord)
    (livePrices : List (String × StockPrice)) :
    List (String × Position) × List GrowthPoint :=
  (growthDates tradeHistory).foldl (growthStep tradeHistory livePrices) ([], [])

/-- `calculatePortfolioGrowthOverTime`. -/
def calculatePortfolioGrowthOverTime (tradeHistory : List TradeRecord)
    (livePrices : List (String × StockPrice)) : List GrowthPoint :=
  if tradeHistory.length = 0 then []
  else (growthFold tradeHistory livePrices).2

/-- Keys of an association-list map, in order. -/
def keys {α : Type} (m : List (String × α)) : List String :=
  m.map Prod.fst

/-- The accumulator `calculateHoldings` builds for one symbol, computed
directly over that symbol's own trades. Used to localise the shared-map
fold to a single symbol. -/
def symbolFold (s : String) (tradeHistory : List TradeRecord) : HoldingAcc :=
  (tradeHistory.filter (fun t => decide (t.symbol = s))).foldl tradeStep ⟨0, 0, []⟩

/-- Per-trade position update as the spec's aggregator contract reads with
the sell-time guard amended to `quantity ≤ 0` (the source's actual guard):
on `sell`, `avgCostPerShare = costBasis / quantity` when `quantity > 0`,
else `0`. State is the bare `(quantity, costBasis)` pair. -/
def specUpdateAmended (p : ℚ × ℚ) (t : TradeRecord) : ℚ × ℚ :=
  match t.transactionType with
  | .buy => (p.1 + t.quantity, p.2 + t.quantity * t.price)
  | .sell =>
      let avgCostPerShare := if p.1 > 0 then p.2 / p.1 else 0
      (p.1 - t.quantity, p.2 - t.quantity * avgCostPerShare)

/-- A symbol's `(quantity, costBasis)` under the amended spec contract:
fold `specUpdateAmended` over the symbol's trades in ledger order. -/
def specPositionAmended (s : String) (tradeHistory : List TradeRecord) : ℚ × ℚ :=
  (tradeHistory.filter (fun t => decide (t.symbol = s))).foldl specUpdateAmended (0, 0)

/-- Per-trade position update exactly as the claim words it: on `sell`,
`avgCostPerShare = costBasis / quantity`, `0` only `if quantity is 0`
(so a negative quantity still divides). Spec-as-written definition, to be
compared against the source's aggregator. -/
def specUpdateZeroGuard (p : ℚ × ℚ) (t : TradeRecord) : ℚ × ℚ :=
  match t.transactionType with
  | .buy => (p.1 + t.quantity, p.2 + t.quantity * t.price)
  | .sell =>
      let avgCostPerShare := if p.1 = 0 then 0 else p.2 / p.1
      (p.1 - t.quantity, p.2 - t.quantity * avgCostPerShare)

/-- A symbol's `(quantity, costBasis)` under the claim's as-written sell
guard (`0` only at quantity exactly `0`). -/
def specPositionZeroGuard (s : String) (tradeHistory : List TradeRecord) : ℚ × ℚ :=
  (tradeHistory.filter (fun t => decide (t.symbol = s))).foldl specUpdateZeroGuard (0, 0)

/-- `sellsCovered q ts`: walking `ts` from a held quantity `q`, every sell
is covered by the quantity held at that moment. -/
def sellsCovered : ℚ → List TradeRecord → Bool
  | _, [] => true
  | q, t :: ts =>
    match t.transactionType with
    | .buy => sellsCovered (q + t.quantity) ts
    | .sell => decide (t.quantity ≤ q) && sellsCovered (q - t.quantity) ts

/-- No sell of symbol `s` in the ledger exceeds the quantity of `s` held
when it executes (the spec's "data-quality anomaly" never occurs for `s`). -/
def noOversell (s : String) (tradeHistory : List TradeRecord) : Bool :=
  sellsCovered 0 (tradeHistory.filter (fun t => decide (t.symbol = s)))

/-- Spec-side total invested: the sum of `quantity × price` over the buy
trades of the full ledger, written as a plain mapped sum. -/
def specBuySum (tradeHistory : List TradeRecord) : ℚ :=
  (tradeHistory.map (fun t =>
    match t.transactionType with
    | .buy => t.quantity * t.price
    | .sell => 0)).sum

/-- Spec-side total current value: the sum over the public holdings view of
each holding's unrounded current value (`quantity × price` when a quote
exists, else `0`), written as a plain mapped sum. -/
def specCurrentSum (tradeHistory : List TradeRecord)
    (livePrices : List (String × StockPrice)) : ℚ :=
  ((calculateHoldings tradeHistory).map (fun e =>
    match mapGet livePrices e.1 with
    | some cp => e.2.quantity * cp.price
    | none => 0)).sum

/-- Spec-side total invested as the claim words it: the sum of `costBasis`
(`investedValue` before rounding) across the holdings of the public view. -/
def specHoldingsCostSum (tradeHistory : List TradeRecord) : ℚ :=
  ((calculateHoldings tradeHistory).map (fun e => e.2.totalCost)).sum

theorem mapGet_nil {α : Type} (k : String) :
    mapGet ([] : List (String × α)) k = none := rfl

theorem mapGet_cons {α : Type} (e : String × α) (m : List (String × α)) (k : String) :
    mapGet (e :: m) k = if e.1 = k then some e.2 else mapGet m k := by
  by_cases h : e.1 = k <;> simp [mapGet, List.find?, h]

theorem mapGet_mapSet_self {α : Type} (k : String) (v : α) :
    ∀ m : List (String × α), mapGet (mapSet m k v) k = some v
  | [] => by simp [mapSet, mapGet_cons]
  | e :: m => by
    by_cases h : e.1 = k
    · simp [mapSet, h, mapGet_cons]
    · simp [mapSet, h, mapGet_cons, mapGet_mapSet_self k v m]

theorem mapGet_mapSet_ne {α : Type} (k k' : String) (v : α) (hk : k' ≠ k) :
    ∀ m : List (String × α), mapGet (mapSet m k v) k' = mapGet m k'
  | [] => by
    simp [mapSet, mapGet_cons, mapGet_nil, Ne.symm hk]
  | e :: m => by
    by_cases h : e.1 = k
    · simp [mapSet, h, mapGet_cons, Ne.symm hk]
    · simp [mapSet, h, mapGet_cons, mapGet_mapSet_ne k k' v hk m]

theorem keys_mem_mapSet {α : Type} (k : String) (v : α) :
    ∀ (m : List (String × α)) (s : String),
      s ∈ keys (mapSet m k v) → s = k ∨ s ∈ keys m := by
  intro m
  induction m with
  | nil =>
    intro s h
    simp only [mapSet, keys, List.map_cons, List.map_nil, List.mem_singleton] at h
    exact Or.inl h
  | cons e m ih =>
    intro s h
    by_cases hc : e.1 = k
    · simp only [mapSet, if_pos hc, keys, List.map_cons, List.mem_cons] at h ⊢
      rcases h with h | h
      · exact Or.inl h
      · exact Or.inr (Or.inr h)
    · simp only [mapSet, if_neg hc, keys, List.map_cons, List.mem_cons] at h ⊢
      rcases h with h | h
      · exact Or.inr (Or.inl h)
      · rcases ih s h with h' | h'
        · exact Or.inl h'
        · exact Or.inr (Or.inr h')

theorem nodupKeys_mapSet {α : Type} (k : String) (v : α) :
    ∀ m : List (String × α), (keys m).Nodup → (keys (mapSet m k v)).Nodup := by
  intro m
  induction m with
  | nil =>
    intro _
    simp [mapSet, keys]
  | cons e m ih =>
    intro h
    simp only [keys, List.map_cons, List.nodup_cons] at h
    by_cases hc : e.1 = k
    · simp only [mapSet, if_pos hc, keys, List.map_cons, List.nodup_cons]
      exact ⟨hc ▸ h.1, h.2⟩
    · simp only [mapSet, if_neg hc, keys, List.map_cons, List.nodup_cons]
      refine ⟨fun hmem => ?_, ih h.2⟩
      rcases keys_mem_mapSet k v m e.1 hmem with h' | h'
      · exact hc h'
      · exact h.1 h'

theorem mapGet_eq_none_of_not_mem_keys {α : Type} (k : String) :
    ∀ m : List (String × α), k ∉ keys m → mapGet m k = none := by
  intro m
  induction m with
  | nil => intro _; rfl
  | cons e m ih =>
    intro h
    simp only [keys, List.map_cons, List.mem_cons, not_or] at h
    rw [mapGet_cons, if_neg (fun he => h.1 he.symm)]
    exact ih h.2

theorem keys_filter_subset {α : Type} (p : String × α → Bool) (k : String) :
    ∀ m : List (String × α), k ∈ keys (m.filter p) → k ∈ keys m := by
  intro m
  induction m with
  | nil => intro h; simp [keys] at h
  | cons e m ih =>
    intro h
    by_cases hp : p e
    · simp only [List.filter_cons, hp, if_pos, keys, List.map_cons, List.mem_cons] at h ⊢
      rcases h with h | h
      · exact Or.inl h
      · exact Or.inr (ih h)
    · simp only [List.filter_cons, hp, keys, List.map_cons, List.mem_cons] at h ⊢
      exact Or.inr (ih (by simpa [hp, keys] using h))

theorem mapGet_filter {α : Type} (p : String × α → Bool) (k : String) :
    ∀ m : List (String × α), (keys m).Nodup →
    mapGet (m.filter p) k =
      (mapGet m k).bind (fun v => if p (k, v) then some v else none) := by
  intro m
  induction m with
  | nil => intro _; rfl
  | cons e m ih =>
    intro hnd
    simp only [keys, List.map_cons, List.nodup_cons] at hnd
    by_cases he : e.1 = k
    · have hek : e = (k, e.2) := by
        cases e; simp_all
      by_cases hp : p e
      · rw [List.filter_cons, if_pos (by simpa using hp), mapGet_cons, if_pos he,
          mapGet_cons, if_pos he]
        simp [← hek, hp]
      · rw [List.filter_cons, if_neg (by simpa using hp), mapGet_cons, if_pos he]
        rw [mapGet_eq_none_of_not_mem_keys k (m.filter p)
          (fun hmem => hnd.1 (he ▸ keys_filter_subset p k m hmem))]
        simp [← hek, hp]
    · by_cases hp : p e
      · rw [List.filter_cons, if_pos (by simpa using hp), mapGet_cons, if_neg he,
          mapGet_cons, if_neg he]
        exact ih hnd.2
      · rw [List.filter_cons, if_neg (by simpa using hp), mapGet_cons, if_neg he]
        exact ih hnd.2

theorem nodupKeys_foldl_processTrade :
    ∀ (L : List TradeRecord) (m : List (String × HoldingAcc)),
      (keys m).Nodup → (keys (L.foldl processTrade m)).Nodup := by
  intro L
  induction L with
  | nil => intro m h; exact h
  | cons t L ih =>
    intro m h
    exact ih _ (nodupKeys_mapSet _ _ _ h)

theorem nodupKeys_rawHoldings (L : List TradeRecord) :
    (keys (rawHoldings L)).Nodup :=
  nodupKeys_foldl_processTrade L [] (by simp [keys])

theorem foldl_processTrade_mapGet (s : String) :
    ∀ (L : List TradeRecord) (m : List (String × HoldingAcc)),
    mapGet (L.foldl processTrade m) s =
      if mapGet m s = none ∧ L.filter (fun t => decide (t.symbol = s)) = [] then none
      else some ((L.filter (fun t => decide (t.symbol = s))).foldl tradeStep
        ((mapGet m s).getD ⟨0, 0, []⟩)) := by
  intro L
  induction L with
  | nil =>
    intro m
    cases h : mapGet m s <;> simp [h]
  | cons t L ih =>
    intro m
    by_cases ht : t.symbol = s
    · have hset : mapGet (processTrade m t) s =
          some (tradeStep ((mapGet m s).getD ⟨0, 0, []⟩) t) := by
        rw [processTrade, ← ht]
        exact mapGet_mapSet_self _ _ _
      rw [List.foldl_cons, ih (processTrade m t), hset]
      simp [ht]
    · have hset : mapGet (processTrade m t) s = mapGet m s := by
        rw [processTrade]
        exact mapGet_mapSet_ne _ _ _ (fun h => ht h.symm) _
      rw [List.foldl_cons, ih (processTrade m t), hset]
      simp [ht]

theorem rawHoldings_mapGet (L : List TradeRecord) (s : String) :
    mapGet (rawHoldings L) s =
      if L.filter (fun t => decide (t.symbol = s)) = [] then none
      else some (symbolFold s L) := by
  have h := foldl_processTrade_mapGet s L []
  simpa [rawHoldings, symbolFold, mapGet_nil] using h

theorem tradeStep_proj (acc : HoldingAcc) (t : TradeRecord) :
    ((tradeStep acc t).quantity, (tradeStep acc t).totalCost) =
      specUpdateAmended (acc.quantity, acc.totalCost) t := by
  cases h : t.transactionType <;>
    simp [tradeStep, applyTrade, specUpdateAmended, h]

theorem foldl_tradeStep_proj :
    ∀ (l : List TradeRecord) (acc : HoldingAcc),
    ((l.foldl tradeStep acc).quantity, (l.foldl tradeStep acc).totalCost) =
      l.foldl specUpdateAmended (acc.quantity, acc.totalCost) := by
  intro l
  induction l with
  | nil => intro acc; rfl
  | cons t l ih =>
    intro acc
    rw [List.foldl_cons, List.foldl_cons, ih (tradeStep acc t), tradeStep_proj]

theorem symbolFold_proj (s : String) (L : List TradeRecord) :
    ((symbolFold s L).quantity, (symbolFold s L).totalCost) =
      specPositionAmended s L := by
  rw [symbolFold, specPositionAmended, foldl_tradeStep_proj]

theorem calculateHoldings_mapGet (L : List TradeRecord) (s : String) :
    mapGet (calculateHoldings L) s =
      (mapGet (rawHoldings L) s).bind
        (fun v => if v.quantity > 0 then some v else none) := by
  have h := mapGet_filter (fun e => decide (e.2.quantity > 0)) s
    (rawHoldings L) (nodupKeys_rawHoldings L)
  rw [calculateHoldings, h]
  cases mapGet (rawHoldings L) s <;> simp

/-- C1 (amended): for every trade ledger and symbol, the holdings
aggregator's public view of that symbol equals the per-symbol fold of the
claim's buy/sell accounting with the sell-time average-cost guard amended
from "0 if quantity is 0" to "0 if quantity ≤ 0" (the symbol appearing iff
its final quantity is positive). -/
theorem holdings_aggregator_matches_amended_contract
    (trades : List TradeRecord) (s : String) :
    (mapGet (calculateHoldings trades) s).map (fun h => (h.quantity, h.totalCost)) =
      if 0 < (specPositionAmended s trades).1
      then some (specPositionAmended s trades) else none := by
  rw [calculateHoldings_mapGet, rawHoldings_mapGet]
  by_cases hf : trades.filter (fun t => decide (t.symbol = s)) = []
  · rw [if_pos hf]
    have hz : specPositionAmended s trades = (0, 0) := by
      rw [specPositionAmended, hf]
      rfl
    simp [hz]
  · rw [if_neg hf]
    have hp := symbolFold_proj s trades
    by_cases hq : (symbolFold s trades).quantity > 0
    · have hq' : 0 < (specPositionAmended s trades).1 := by
        rw [← hp]
        exact hq
      simp [hq, hq', hp]
    · have hq' : ¬ 0 < (specPositionAmended s trades).1 := by
        rw [← hp]
        exact hq
      simp [hq, hq']

/-- C1 counterexample: on the ledger buy 1@10, sell 2@5, sell 1@5,
buy 4@10 the source's aggregator (sell guard `quantity > 0`) reports the
position (quantity 2, costBasis 30), while the claim's accounting, which
divides by any non-zero quantity, yields (2, 20): the claim's "0 if
quantity is 0" mis-describes the code at negative quantities. -/
theorem holdings_aggregator_zero_guard_counterexample :
    (mapGet (calculateHoldings
      [⟨"d1", "A", 1, 10, .buy⟩, ⟨"d2", "A", 2, 5, .sell⟩,
       ⟨"d3", "A", 1, 5, .sell⟩, ⟨"d4", "A", 4, 10, .buy⟩]) "A").map
        (fun h => (h.quantity, h.totalCost)) = some (2, 30) ∧
    specPositionZeroGuard "A"
      [⟨"d1", "A", 1, 10, .buy⟩, ⟨"d2", "A", 2, 5, .sell⟩,
       ⟨"d3", "A", 1, 5, .sell⟩, ⟨"d4", "A", 4, 10, .buy⟩] = (2, 20) ∧
    ((2, 30) : ℚ × ℚ) ≠ (2, 20) := by
  refine ⟨?_, ?_, by norm_num⟩
  · norm_num [calculateHoldings, rawHoldings, processTrade, tradeStep, applyTrade,
      mapGet, mapSet, List.find?]
  · norm_num [specPositionZeroGuard, specUpdateZeroGuard]

/-- C3: on the ledger [buy AAPL 100@150.50, sell AAPL 50@155.00] with
price lookup AAPL → 160.00, the aggregator's position is quantity 50 and
costBasis 7525.00, and the summary holds exactly one Holding with
averagePrice 150.50, investedValue 7525.00, currentValue 8000.00,
pnl 475.00 and pnlPercent 6.31. -/
theorem concrete_aapl_pipeline_example :
    mapGet (calculateHoldings
      [⟨"2024-01-15", "AAPL", 100, 301/2, .buy⟩,
       ⟨"2024-02-01", "AAPL", 50, 155, .sell⟩]) "AAPL" =
      some ⟨50, 7525,
        [⟨"2024-01-15", "AAPL", 100, 301/2, .buy⟩,
         ⟨"2024-02-01", "AAPL", 50, 155, .sell⟩]⟩ ∧
    (calculatePortfolioSummary
      [⟨"2024-01-15", "AAPL", 100, 301/2, .buy⟩,
       ⟨"2024-02-01", "AAPL", 50, 155, .sell⟩]
      [("AAPL", ⟨160, 0, 0, 0⟩)]).holdings =
      [⟨"AAPL", 50, 301/2, 7525, 8000, 475, 631/100⟩] := by
  constructor
  · norm_num [calculateHoldings, rawHoldings, processTrade, tradeStep, applyTrade,
      mapGet, mapSet, List.find?]
  · norm_num [calculatePortfolioSummary, calculateHoldings, rawHoldings, processTrade,
      tradeStep, applyTrade, mapGet, mapSet, List.find?, mkHolding, calculatePnL,
      calculateInvestedValue, calculateCurrentValue, round2, List.insertionSort,
      List.orderedInsert]

/-- C6: every symbol the holdings view binds has strictly positive
quantity, and hence every Holding of the portfolio summary has strictly
positive quantity. -/
theorem holdings_view_quantities_positive (trades : List TradeRecord)
    (livePrices : List (String × StockPrice)) :
    (∀ s acc, mapGet (calculateHoldings trades) s = some acc → 0 < acc.quantity) ∧
    (∀ h ∈ (calculatePortfolioSummary trades livePrices).holdings, 0 < h.quantity) := by
  have hview : ∀ e ∈ calculateHoldings trades, (0 : ℚ) < e.2.quantity := by
    intro e he
    rw [calculateHoldings] at he
    have := (List.mem_filter.mp he).2
    simpa using this
  constructor
  · intro s acc h
    rw [mapGet] at h
    cases hf : (calculateHoldings trades).find? (fun e => decide (e.1 = s)) with
    | none => rw [hf] at h; exact absurd h (by simp)
    | some e =>
      rw [hf] at h
      have he : e ∈ calculateHoldings trades := List.mem_of_find?_eq_some hf
      have hq := hview e he
      simp only [Option.some.injEq] at h
      exact h ▸ hq
  · intro h hmem
    rw [calculatePortfolioSummary] at hmem
    simp only [List.mem_insertionSort, List.mem_map] at hmem
    obtain ⟨e, he, rfl⟩ := hmem
    simpa [mkHolding] using hview e he

/-- Witness for C6 at a one-buy ledger. -/
theorem holdings_view_quantities_positive_witness :
    mapGet (calculateHoldings [⟨"d", "A", 1, 10, .buy⟩]) "A" =
      some ⟨1, 10, [⟨"d", "A", 1, 10, .buy⟩]⟩ ∧
    (0 : ℚ) < (⟨1, 10, [⟨"d", "A", 1, 10, .buy⟩]⟩ : HoldingAcc).quantity :=
  ⟨by norm_num [calculateHoldings, rawHoldings, processTrade, tradeStep, applyTrade,
      mapGet, mapSet, List.find?],
   (holdings_view_quantities_positive [⟨"d", "A", 1, 10, .buy⟩] []).1 "A"
     ⟨1, 10, [⟨"d", "A", 1, 10, .buy⟩]⟩
     (by norm_num [calculateHoldings, rawHoldings, processTrade, tradeStep, applyTrade,
        mapGet, mapSet, List.find?])⟩

theorem calculateHoldings_mem_pos (trades : List TradeRecord) :
    ∀ e ∈ calculateHoldings trades, (0 : ℚ) < e.2.quantity := by
  intro e he
  rw [calculateHoldings] at he
  have := (List.mem_filter.mp he).2
  simpa using this

theorem invested_foldl_aux :
    ∀ (L : List TradeRecord) (a : ℚ),
    (L.filter (fun t => decide (t.transactionType = .buy))).foldl
      (fun total t => total + t.quantity * t.price) a = a + specBuySum L := by
  intro L
  induction L with
  | nil => intro a; simp [specBuySum]
  | cons t L ih =>
    intro a
    rw [specBuySum, List.map_cons, List.sum_cons, ← specBuySum, List.filter_cons]
    cases h : t.transactionType with
    | buy =>
      simp only [h]
      simp
      rw [ih]
      ring
    | sell =>
      simp only [h]
      simp
      rw [ih]

theorem calculateInvestedValue_eq_specBuySum (L : List TradeRecord) :
    calculateInvestedValue L = specBuySum L := by
  have h := invested_foldl_aux L 0
  simpa [calculateInvestedValue] using h

theorem currentValue_foldl_aux (livePrices : List (String × StockPrice)) :
    ∀ (hm : List (String × HoldingAcc)) (a : ℚ),
    (∀ e ∈ hm, (0 : ℚ) < e.2.quantity) →
    hm.foldl
      (fun totalValue e =>
        match mapGet livePrices e.1 with
        | some currentPrice =>
            if e.2.quantity > (0 : ℚ) then totalValue + e.2.quantity * currentPrice.price
            else totalValue
        | none => totalValue) a =
      a + (hm.map (fun e =>
        match mapGet livePrices e.1 with
        | some cp => e.2.quantity * cp.price
        | none => 0)).sum := by
  intro hm
  induction hm with
  | nil => intro a _; simp
  | cons e hm ih =>
    intro a hpos
    have he : (0 : ℚ) < e.2.quantity := hpos e (by simp)
    have htail : ∀ x ∈ hm, (0 : ℚ) < x.2.quantity := fun x hx => hpos x (by simp [hx])
    cases hq : mapGet livePrices e.1 with
    | none =>
      simp only [List.foldl_cons, List.map_cons, List.sum_cons, hq]
      rw [ih a htail]
      ring
    | some cp =>
      simp only [List.foldl_cons, List.map_cons, List.sum_cons, hq, if_pos he]
      rw [ih _ htail]
      ring

theorem calculateCurrentValue_eq_specCurrentSum (L : List TradeRecord)
    (livePrices : List (String × StockPrice)) :
    calculateCurrentValue livePrices (calculateHoldings L) =
      specCurrentSum L livePrices := by
  have h := currentValue_foldl_aux livePrices (calculateHoldings L) 0
    (calculateHoldings_mem_pos L)
  simpa [calculateCurrentValue, specCurrentSum] using h

/-- C2 (amended): the summary's `totalCurrentValue` is the straight sum of
the holdings view's unrounded current values, rounded once; but
`totalInvested` is the rounded sum of `quantity × price` over every buy of
the full ledger (including positions since reduced or closed), not the sum
of `costBasis` across the public holdings view. -/
theorem summary_totals_amended (trades : List TradeRecord)
    (livePrices : List (String × StockPrice)) :
    (calculatePortfolioSummary trades livePrices).totalInvested =
      round2 (specBuySum trades) ∧
    (calculatePortfolioSummary trades livePrices).totalCurrentValue =
      round2 (specCurrentSum trades livePrices) := by
  constructor
  · simp only [calculatePortfolioSummary]
    rw [calculateInvestedValue_eq_specBuySum]
  · simp only [calculatePortfolioSummary]
    rw [calculateCurrentValue_eq_specCurrentSum]

/-- C2 counterexample: for the ledger buy 2@10 then sell 1@7 the public
view holds costBasis 10, whose once-rounded sum is 10, but the summary
reports totalInvested 20 (the cost of all buys): totalInvested is not the
sum of `investedValue` across the holdings of the public view. -/
theorem summary_totalInvested_counterexample :
    (calculatePortfolioSummary
      [⟨"d", "A", 2, 10, .buy⟩, ⟨"d", "A", 1, 7, .sell⟩] []).totalInvested = 20 ∧
    round2 (specHoldingsCostSum
      [⟨"d", "A", 2, 10, .buy⟩, ⟨"d", "A", 1, 7, .sell⟩]) = 10 ∧
    (20 : ℚ) ≠ 10 := by
  refine ⟨?_, ?_, by norm_num⟩
  · norm_num [calculatePortfolioSummary, calculateInvestedValue, round2,
      List.filter, List.foldl]
  · norm_num [specHoldingsCostSum, calculateHoldings, rawHoldings, processTrade,
      tradeStep, applyTrade, mapGet, mapSet, List.find?, round2]

theorem foldl_add_map (f : TradeRecord → ℚ) :
    ∀ (l : List TradeRecord) (a : ℚ),
    l.foldl (fun acc t => acc + f t) a = a + (l.map f).sum := by
  intro l
  induction l with
  | nil => intro a; simp
  | cons t l ih =>
    intro a
    simp only [List.foldl_cons, List.map_cons, List.sum_cons]
    rw [ih]
    ring

/-- C8: when every trade of a symbol in the ledger is a buy (with positive
quantities and prices), `calculateAveragePrice` returns exactly the
quantity-weighted mean of that symbol's trade prices,
`(Σ quantityᵢ × priceᵢ) / (Σ quantityᵢ)`. -/
theorem average_price_is_weighted_mean (trades : List TradeRecord) (s : String)
    (honly : ∀ t ∈ trades, t.symbol = s → t.transactionType = .buy)
    (hpos : ∀ t ∈ trades, 0 < t.quantity ∧ 0 < t.price) :
    calculateAveragePrice s trades =
      ((trades.filter (fun t => decide (t.symbol = s))).map
        (fun t => t.quantity * t.price)).sum /
      ((trades.filter (fun t => decide (t.symbol = s))).map
        (fun t => t.quantity)).sum := by
  have hfe : trades.filter
      (fun t => decide (t.symbol = s) && decide (t.transactionType = .buy)) =
      trades.filter (fun t => decide (t.symbol = s)) := by
    apply List.filter_congr
    intro t ht
    by_cases hs : t.symbol = s
    · simp [hs, honly t ht hs]
    · simp [hs]
  rw [calculateAveragePrice]
  simp only [hfe]
  by_cases hnil : trades.filter (fun t => decide (t.symbol = s)) = []
  · rw [hnil]
    simp
  · rw [if_neg (by simpa [List.length_eq_zero] using hnil)]
    rw [foldl_add_map (fun t => t.quantity), foldl_add_map (fun t => t.quantity * t.price)]
    have hq : (0 : ℚ) <
        ((trades.filter (fun t => decide (t.symbol = s))).map (fun t => t.quantity)).sum := by
      apply List.sum_pos
      · intro x hx
        rcases List.mem_map.mp hx with ⟨t, ht, rfl⟩
        exact (hpos t (List.mem_of_mem_filter ht)).1
      · simpa using hnil
    rw [if_pos (by simpa using hq)]
    simp

/-- Witness for C8: two buys of A, 1@10 and 3@11. -/
theorem average_price_is_weighted_mean_witness :
    (∀ t ∈ [(⟨"d", "A", 1, 10, .buy⟩ : TradeRecord), ⟨"d", "A", 3, 11, .buy⟩],
      t.symbol = "A" → t.transactionType = TransactionType.buy) ∧
    (∀ t ∈ [(⟨"d", "A", 1, 10, .buy⟩ : TradeRecord), ⟨"d", "A", 3, 11, .buy⟩],
      0 < t.quantity ∧ 0 < t.price) ∧
    calculateAveragePrice "A"
      [⟨"d", "A", 1, 10, .buy⟩, ⟨"d", "A", 3, 11, .buy⟩] =
      (([(⟨"d", "A", 1, 10, .buy⟩ : TradeRecord), ⟨"d", "A", 3, 11, .buy⟩].filter
        (fun t => decide (t.symbol = "A"))).map (fun t => t.quantity * t.price)).sum /
      (([(⟨"d", "A", 1, 10, .buy⟩ : TradeRecord), ⟨"d", "A", 3, 11, .buy⟩].filter
        (fun t => decide (t.symbol = "A"))).map (fun t => t.quantity)).sum :=
  ⟨by intro t ht; fin_cases ht <;> simp,
   by intro t ht; fin_cases ht <;> norm_num,
   average_price_is_weighted_mean _ "A"
     (by intro t ht; fin_cases ht <;> simp)
     (by intro t ht; fin_cases ht <;> norm_num)⟩

/-- C10: the zero-denominator guards: `calculatePnL` returns percentage 0
whenever investedValue is not strictly positive (in particular at 0), and
the sell branch of the aggregator leaves `totalCost` unchanged (treats the
average cost as 0) whenever the held quantity is not strictly positive,
while still subtracting the sold quantity. Over the ℚ model every output
is a finite rational. -/
theorem division_guards_resolve_to_zero (i c : ℚ) (acc : HoldingAcc)
    (t : TradeRecord) (hi : ¬ i > 0) (hq : ¬ acc.quantity > 0)
    (hsell : t.transactionType = .sell) :
    (calculatePnL i c).percentage = 0 ∧
    (applyTrade acc t).totalCost = acc.totalCost ∧
    (applyTrade acc t).quantity = acc.quantity - t.quantity := by
  refine ⟨?_, ?_, ?_⟩
  · simp only [calculatePnL, if_neg hi, round2]
    norm_num
  · simp [applyTrade, hsell, hq]
  · simp [applyTrade, hsell]

/-- Witness for C10 at investedValue 0 and an oversold position. -/
theorem division_guards_resolve_to_zero_witness :
    ¬ (0 : ℚ) > 0 ∧
    ((calculatePnL 0 5).percentage = 0 ∧
     (applyTrade ⟨0, 7, []⟩ ⟨"d", "A", 1, 5, .sell⟩).totalCost =
       (⟨0, 7, []⟩ : HoldingAcc).totalCost ∧
     (applyTrade ⟨0, 7, []⟩ ⟨"d", "A", 1, 5, .sell⟩).quantity =
       (⟨0, 7, []⟩ : HoldingAcc).quantity - (⟨"d", "A", 1, 5, .sell⟩ : TradeRecord).quantity) :=
  ⟨by norm_num,
   division_guards_resolve_to_zero 0 5 ⟨0, 7, []⟩ ⟨"d", "A", 1, 5, .sell⟩
     (by norm_num) (by norm_num) rfl⟩

theorem round2_eq_half_away_of_nonneg (x : ℚ) (hx : 0 ≤ x) :
    round2 x = roundHalfAway2 x := by
  rw [roundHalfAway2, if_pos hx, round2]

theorem round2_vs_half_away (y : ℚ) :
    round2 y = roundHalfAway2 y ∨ round2 y = roundHalfAway2 y + 1 / 100 := by
  by_cases hy : 0 ≤ y
  · exact Or.inl (round2_eq_half_away_of_nonneg y hy)
  · rw [round2, roundHalfAway2, if_neg hy]
    set p : ℤ := ⌊-y * 100 + 1 / 2⌋ with hp
    set n : ℤ := ⌊y * 100 + 1 / 2⌋ with hn
    have hple : (p : ℚ) ≤ -y * 100 + 1 / 2 := by
      rw [hp]
      exact Int.floor_le _
    have hpge : (-y * 100 + 1 / 2 : ℚ) - 1 < p := by
      rw [hp]
      exact Int.sub_one_lt_floor _
    have hlow : -p ≤ n := by
      rw [hn]
      rw [Int.le_floor]
      push_cast
      linarith
    have hhigh : n ≤ -p + 1 := by
      have h1 : (y * 100 + 1 / 2 : ℚ) ≤ ((-p + 1 : ℤ) : ℚ) := by
        push_cast
        linarith
      calc n ≤ ⌊((-p + 1 : ℤ) : ℚ)⌋ := by
              rw [hn]
              exact Int.floor_le_floor h1
        _ = -p + 1 := Int.floor_intCast _
    have hcase : n = -p ∨ n = -p + 1 := by omega
    rcases hcase with hni | hni
    · left
      rw [hni]
      push_cast
      ring
    · right
      rw [hni]
      push_cast
      ring

/-- C9 counterexample: an absolute P&L of −0.005 is rounded by the code to
0.00 (`Math.round` sends −0.5 to −0), while round-half-away-from-zero on
the cent boundary yields −0.01; so negative values are not rounded
half-away-from-zero. -/
theorem rounding_half_away_counterexample :
    (calculatePnL (2001 / 200) 10).absolute = 0 ∧
    roundHalfAway2 (10 - 2001 / 200) = -(1 / 100) ∧
    ((0 : ℚ) ≠ -(1 / 100)) := by
  refine ⟨?_, ?_, by norm_num⟩
  · norm_num [calculatePnL, round2]
  · norm_num [roundHalfAway2]

/-- C9 (amended): monetary outputs are rounded on the cent boundary by
`x ↦ ⌊100x + 1/2⌋ / 100` (JS `Math.round`: halves toward +∞). This equals
round-half-away-from-zero for every non-negative value; for any value the
two differ by at most one cent, negative exact halves rounding toward +∞
rather than away from zero. -/
theorem rounding_policy_amended (trades : List TradeRecord)
    (livePrices : List (String × StockPrice)) (i c x : ℚ) (hx : 0 ≤ x) :
    (calculatePnL i c).absolute = round2 (c - i) ∧
    (calculatePnL i c).percentage =
      round2 (if i > 0 then (c - i) / i * 100 else 0) ∧
    (calculatePortfolioSummary trades livePrices).totalInvested =
      round2 (calculateInvestedValue trades) ∧
    (calculatePortfolioSummary trades livePrices).totalCurrentValue =
      round2 (calculateCurrentValue livePrices (calculateHoldings trades)) ∧
    round2 x = roundHalfAway2 x ∧
    (∀ y : ℚ, round2 y = roundHalfAway2 y ∨ round2 y = roundHalfAway2 y + 1 / 100) := by
  refine ⟨rfl, rfl, rfl, rfl, round2_eq_half_away_of_nonneg x hx, round2_vs_half_away⟩

/-- Witness for C9 at concrete inputs. -/
theorem rounding_policy_amended_witness :
    (0 : ℚ) ≤ 1 / 2 ∧ round2 (1 / 2) = roundHalfAway2 (1 / 2) :=
  ⟨by norm_num,
   (rounding_policy_amended [] [] 1 2 (1 / 2) (by norm_num)).2.2.2.2.1⟩

theorem round2_nonneg (x : ℚ) (hx : 0 ≤ x) : 0 ≤ round2 x := by
  rw [round2]
  have h : (0 : ℤ) ≤ ⌊x * 100 + 1 / 2⌋ := by
    rw [Int.le_floor]
    push_cast
    linarith
  positivity

theorem covered_fold_invariant :
    ∀ (l : List TradeRecord) (acc : HoldingAcc),
    (∀ t ∈ l, 0 < t.quantity ∧ 0 < t.price) →
    sellsCovered acc.quantity l = true →
    0 ≤ acc.quantity →
    (0 < acc.quantity → 0 < acc.totalCost) →
    (acc.quantity = 0 → acc.totalCost = 0) →
    0 ≤ (l.foldl tradeStep acc).quantity ∧
    (0 < (l.foldl tradeStep acc).quantity → 0 < (l.foldl tradeStep acc).totalCost) ∧
    ((l.foldl tradeStep acc).quantity = 0 → (l.foldl tradeStep acc).totalCost = 0) := by
  intro l
  induction l with
  | nil =>
    intro acc _ _ h0 h1 h2
    exact ⟨h0, h1, h2⟩
  | cons t l ih =>
    intro acc hpos hcov hq0 hqc hqz
    have htq : 0 < t.quantity := (hpos t (by simp)).1
    have htp : 0 < t.price := (hpos t (by simp)).2
    have hpos' : ∀ x ∈ l, 0 < x.quantity ∧ 0 < x.price := fun x hx => hpos x (by simp [hx])
    rw [List.foldl_cons]
    cases ht : t.transactionType with
    | buy =>
      have hstep : (tradeStep acc t).quantity = acc.quantity + t.quantity ∧
          (tradeStep acc t).totalCost = acc.totalCost + t.quantity * t.price := by
        constructor <;> simp [tradeStep, applyTrade, ht]
      have hcov' : sellsCovered (tradeStep acc t).quantity l = true := by
        rw [hstep.1]
        rw [sellsCovered, ht] at hcov
        exact hcov
      have hc0 : 0 ≤ acc.totalCost := by
        rcases lt_or_eq_of_le hq0 with h | h
        · exact le_of_lt (hqc h)
        · rw [hqz h.symm]
      refine ih (tradeStep acc t) hpos' hcov' ?_ ?_ ?_
      · rw [hstep.1]
        linarith
      · intro _
        rw [hstep.2]
        have := mul_pos htq htp
        linarith
      · intro hz
        rw [hstep.1] at hz
        nlinarith
    | sell =>
      rw [sellsCovered, ht, Bool.and_eq_true, decide_eq_true_eq] at hcov
      obtain ⟨hle, hcov⟩ := hcov
      have hqpos : 0 < acc.quantity := lt_of_lt_of_le htq hle
      have hcpos : 0 < acc.totalCost := hqc hqpos
      have hstep : (tradeStep acc t).quantity = acc.quantity - t.quantity ∧
          (tradeStep acc t).totalCost =
            acc.totalCost - t.quantity * (acc.totalCost / acc.quantity) := by
        constructor <;> simp [tradeStep, applyTrade, ht, hqpos]
      have hcform : (tradeStep acc t).totalCost =
          acc.totalCost * (acc.quantity - t.quantity) / acc.quantity := by
        rw [hstep.2]
        field_simp
        ring
      have hcov' : sellsCovered (tradeStep acc t).quantity l = true := by
        rw [hstep.1]
        exact hcov
      refine ih (tradeStep acc t) hpos' hcov' ?_ ?_ ?_
      · rw [hstep.1]
        linarith
      · intro hq
        rw [hstep.1] at hq
        rw [hcform]
        positivity
      · intro hz
        rw [hstep.1] at hz
        rw [hcform]
        rw [show acc.quantity - t.quantity = 0 from hz]
        simp

/-- C7 (amended): if every trade has positive quantity and price and no
sell of the symbol exceeds the quantity held when it executes, then any
symbol bound in the holdings view that has at least one buy trade has
strictly positive (pre-rounding) costBasis, and its rounded investedValue
is non-negative. Without the no-oversell hypothesis the claim is false. -/
theorem invested_value_positive_amended (trades : List TradeRecord)
    (s : String) (acc : HoldingAcc)
    (hpos : ∀ t ∈ trades, 0 < t.quantity ∧ 0 < t.price)
    (hcov : noOversell s trades = true)
    (hbuy : ∃ t ∈ trades, t.symbol = s ∧ t.transactionType = .buy)
    (hmem : mapGet (calculateHoldings trades) s = some acc) :
    0 < acc.totalCost ∧ 0 ≤ round2 acc.totalCost := by
  rw [calculateHoldings_mapGet, rawHoldings_mapGet] at hmem
  by_cases hf : trades.filter (fun t => decide (t.symbol = s)) = []
  · rw [if_pos hf] at hmem
    exact absurd hmem (by simp)
  · rw [if_neg hf] at hmem
    simp only [Option.some_bind] at hmem
    by_cases hq : (symbolFold s trades).quantity > 0
    · rw [if_pos hq, Option.some.injEq] at hmem
      subst hmem
      have hinv := covered_fold_invariant
        (trades.filter (fun t => decide (t.symbol = s))) ⟨0, 0, []⟩
        (fun t ht => hpos t (List.mem_of_mem_filter ht))
        (by rw [noOversell] at hcov; exact hcov)
        (le_refl 0) (by intro h; exact absurd h (by norm_num)) (fun _ => rfl)
      rw [← symbolFold] at hinv
      have hc := hinv.2.1 hq
      exact ⟨hc, round2_nonneg _ (le_of_lt hc)⟩
    · rw [if_neg hq] at hmem
      exact absurd hmem (by simp)

/-- C7 counterexample: on the ledger buy 1@10, sell 2@5 (an oversell),
buy 3@1 the symbol stays in the holdings view with quantity 2 but its
investedValue is −7: quantity > 0 plus a buy trade does not make
investedValue positive. -/
theorem invested_value_positive_counterexample :
    (calculatePortfolioSummary
      [⟨"d1", "A", 1, 10, .buy⟩, ⟨"d2", "A", 2, 5, .sell⟩,
       ⟨"d3", "A", 3, 1, .buy⟩] []).holdings.map
        (fun h => (h.symbol, h.quantity, h.investedValue)) = [("A", 2, -7)] ∧
    ¬ (0 : ℚ) < -7 := by
  refine ⟨?_, by norm_num⟩
  norm_num [calculatePortfolioSummary, calculateHoldings, rawHoldings, processTrade,
    tradeStep, applyTrade, mapGet, mapSet, List.find?, mkHolding, calculatePnL,
    calculateInvestedValue, calculateCurrentValue, round2, List.insertionSort,
    List.orderedInsert]

/-- Witness for C7 (amended) at a covered one-buy-one-sell ledger. -/
theorem invested_value_positive_amended_witness :
    noOversell "A" [⟨"d1", "A", 2, 10, .buy⟩, ⟨"d2", "A", 1, 5, .sell⟩] = true ∧
    mapGet (calculateHoldings
      [⟨"d1", "A", 2, 10, .buy⟩, ⟨"d2", "A", 1, 5, .sell⟩]) "A" =
      some ⟨1, 10, [⟨"d1", "A", 2, 10, .buy⟩, ⟨"d2", "A", 1, 5, .sell⟩]⟩ ∧
    (0 : ℚ) < (10 : ℚ) ∧ (0 : ℚ) ≤ round2 10 :=
  ⟨by norm_num [noOversell, sellsCovered],
   by norm_num [calculateHoldings, rawHoldings, processTrade, tradeStep, applyTrade,
      mapGet, mapSet, List.find?],
   invested_value_positive_amended
     [⟨"d1", "A", 2, 10, .buy⟩, ⟨"d2", "A", 1, 5, .sell⟩] "A"
     ⟨1, 10, [⟨"d1", "A", 2, 10, .buy⟩, ⟨"d2", "A", 1, 5, .sell⟩]⟩
     (by intro t ht; fin_cases ht <;> norm_num)
     (by norm_num [noOversell, sellsCovered])
     ⟨⟨"d1", "A", 2, 10, .buy⟩, by simp, rfl, rfl⟩
     (by norm_num [calculateHoldings, rawHoldings, processTrade, tradeStep, applyTrade,
        mapGet, mapSet, List.find?])⟩

theorem mem_mapSet {α : Type} (k : String) (v : α) :
    ∀ (m : List (String × α)) (e : String × α),
      e ∈ mapSet m k v → e = (k, v) ∨ e ∈ m := by
  intro m
  induction m with
  | nil =>
    intro e h
    simp only [mapSet, List.mem_singleton] at h
    exact Or.inl h
  | cons a m ih =>
    intro e h
    by_cases hc : a.1 = k
    · simp only [mapSet, if_pos hc, List.mem_cons] at h
      rcases h with h | h
      · exact Or.inl h
      · exact Or.inr (List.mem_cons_of_mem a h)
    · simp only [mapSet, if_neg hc, List.mem_cons] at h
      rcases h with h | h
      · exact Or.inr (h ▸ List.mem_cons_self a m)
      · rcases ih e h with h' | h'
        · exact Or.inl h'
        · exact Or.inr (List.mem_cons_of_mem a h')

theorem mem_mapDelete {α : Type} (k : String) (m : List (String × α))
    (e : String × α) (h : e ∈ mapDelete m k) : e ∈ m :=
  List.mem_of_mem_filter h

theorem pos_after_set_or_delete (m : List (String × Position)) (k : String)
    (u : Position) (hm : ∀ e ∈ m, (0 : ℚ) < e.2.quantity) :
    ∀ e ∈ (if u.quantity > 0 then mapSet m k u else mapDelete m k),
      (0 : ℚ) < e.2.quantity := by
  intro e he
  by_cases hq : u.quantity > 0
  · rw [if_pos hq] at he
    rcases mem_mapSet k u m e he with rfl | h
    · exact hq
    · exact hm e h
  · rw [if_neg hq] at he
    exact hm e (mem_mapDelete k m e he)

theorem applyGrowthTrade_pos (m : List (String × Position)) (t : TradeRecord)
    (hm : ∀ e ∈ m, (0 : ℚ) < e.2.quantity) :
    ∀ e ∈ applyGrowthTrade m t, (0 : ℚ) < e.2.quantity := by
  rw [applyGrowthTrade]
  exact pos_after_set_or_delete m t.symbol _ hm

theorem foldl_applyGrowthTrade_pos :
    ∀ (l : List TradeRecord) (m : List (String × Position)),
    (∀ e ∈ m, (0 : ℚ) < e.2.quantity) →
    ∀ e ∈ l.foldl applyGrowthTrade m, (0 : ℚ) < e.2.quantity := by
  intro l
  induction l with
  | nil => intro m hm; exact hm
  | cons t l ih =>
    intro m hm
    exact ih _ (applyGrowthTrade_pos m t hm)

theorem growthFold_fst_indep (trades : List TradeRecord)
    (p p' : List (String × StockPrice)) :
    ∀ (dates : List String) (st st' : List (String × Position) × List GrowthPoint),
    st.1 = st'.1 →
    (dates.foldl (growthStep trades p) st).1 =
      (dates.foldl (growthStep trades p') st').1 := by
  intro dates
  induction dates with
  | nil => intro st st' h; exact h
  | cons d dates ih =>
    intro st st' h
    rw [List.foldl_cons, List.foldl_cons]
    apply ih
    simp only [growthStep]
    rw [h]

theorem growthFold_dates_pos (trades : List TradeRecord)
    (p : List (String × StockPrice)) :
    ∀ (dates : List String) (st : List (String × Position) × List GrowthPoint),
    (∀ e ∈ st.1, (0 : ℚ) < e.2.quantity) →
    ∀ e ∈ (dates.foldl (growthStep trades p) st).1, (0 : ℚ) < e.2.quantity := by
  intro dates
  induction dates with
  | nil => intro st h; exact h
  | cons d dates ih =>
    intro st h
    rw [List.foldl_cons]
    apply ih
    exact foldl_applyGrowthTrade_pos _ _ h

theorem growthFold_snd_dates_aux (trades : List TradeRecord)
    (p : List (String × StockPrice)) :
    ∀ (dates : List String) (st : List (String × Position) × List GrowthPoint),
    ((dates.foldl (growthStep trades p) st).2).map (fun g => g.date) =
      (st.2.map (fun g => g.date)) ++ dates := by
  intro dates
  induction dates with
  | nil => intro st; simp
  | cons d dates ih =>
    intro st
    rw [List.foldl_cons, ih]
    simp [growthStep]

theorem growthFold_snd_dates (trades : List TradeRecord)
    (p : List (String × StockPrice)) :
    ((growthFold trades p).2).map (fun g => g.date) = growthDates trades := by
  rw [growthFold, growthFold_snd_dates_aux]
  simp

theorem growthDates_nodup (trades : List TradeRecord) :
    (growthDates trades).Nodup := by
  rw [growthDates]
  exact ((List.perm_insertionSort _ _).nodup_iff).mpr (List.nodup_dedup _)

theorem growthDates_mem (trades : List TradeRecord) (d : String) :
    d ∈ growthDates trades ↔ d ∈ trades.map (fun t => t.date) := by
  rw [growthDates, List.mem_insertionSort]
  exact List.mem_dedup

theorem growthDates_sorted (trades : List TradeRecord) :
    (growthDates trades).Sorted (· < ·) :=
  (List.sorted_insertionSort _ _).lt_of_le (growthDates_nodup trades)

theorem growth_result_dates (trades : List TradeRecord)
    (p : List (String × StockPrice)) :
    (calculatePortfolioGrowthOverTime trades p).map (fun g => g.date) =
      growthDates trades := by
  rw [calculatePortfolioGrowthOverTime]
  by_cases h : trades.length = 0
  · rw [if_pos h]
    have hnil : trades = [] := List.length_eq_zero.mp h
    subst hnil
    simp [growthDates]
  · rw [if_neg h]
    exact growthFold_snd_dates trades p

/-- C4: the growth series has exactly one point per distinct date of the
ledger (its date list is duplicate-free and carries exactly the ledger's
dates, with length the number of distinct dates), the dates are strictly
ascending (in the string order the source sorts by), and the empty ledger
yields the empty series. -/
theorem growth_series_one_point_per_distinct_date (trades : List TradeRecord)
    (livePrices : List (String × StockPrice)) :
    calculatePortfolioGrowthOverTime [] livePrices = [] ∧
    ((calculatePortfolioGrowthOverTime trades livePrices).map (fun g => g.date)).Nodup ∧
    (∀ d, d ∈ (calculatePortfolioGrowthOverTime trades livePrices).map (fun g => g.date) ↔
      d ∈ trades.map (fun t => t.date)) ∧
    ((calculatePortfolioGrowthOverTime trades livePrices).map
      (fun g => g.date)).Sorted (· < ·) ∧
    (calculatePortfolioGrowthOverTime trades livePrices).length =
      ((trades.map (fun t => t.date)).dedup).length := by
  refine ⟨rfl, ?_, ?_, ?_, ?_⟩
  · rw [growth_result_dates]
    exact growthDates_nodup trades
  · intro d
    rw [growth_result_dates]
    exact growthDates_mem trades d
  · rw [growth_result_dates]
    exact growthDates_sorted trades
  · have hlen : (calculatePortfolioGrowthOverTime trades livePrices).length =
        ((calculatePortfolioGrowthOverTime trades livePrices).map
          (fun g => g.date)).length := (List.length_map _ _).symm
    rw [hlen, growth_result_dates, growthDates]
    exact (List.perm_insertionSort _ _).length_eq

/-- C5 (amended): the running position map of the growth reconstruction is
independent of the price lookup — losing a quote never removes a symbol
from the map, it only omits it from that date's value — while any symbol
whose quantity settles to zero or below is deleted from the map, so every
entry of the running map has strictly positive quantity. -/
theorem growth_running_map_amended (trades : List TradeRecord)
    (p p' : List (String × StockPrice)) :
    (growthFold trades p).1 = (growthFold trades p').1 ∧
    (∀ e ∈ (growthFold trades p).1, (0 : ℚ) < e.2.quantity) := by
  constructor
  · rw [growthFold, growthFold]
    exact growthFold_fst_indep trades p p' (growthDates trades) ([], []) ([], []) rfl
  · rw [growthFold]
    exact growthFold_dates_pos trades p (growthDates trades) ([], []) (by simp)

/-- C5 counterexample: with a single buy of A and a price lookup that has
no entry for A, after A's trade date the running map still contains A with
its full position — the symbol without a quote is only omitted from the
date's output value (which is 0), not removed from the map. -/
theorem growth_quote_loss_counterexample :
    (growthFold [⟨"2024-01-01", "A", 1, 10, .buy⟩] []).1 =
      [("A", (⟨1, 10⟩ : Position))] ∧
    (growthFold [⟨"2024-01-01", "A", 1, 10, .buy⟩] []).2 =
      [⟨"2024-01-01", 0⟩] := by
  constructor <;>
    norm_num [growthFold, growthDates, growthStep, applyGrowthTrade, portfolioValueAt,
      mapGet, mapSet, mapDelete, round2, List.insertionSort, List.orderedInsert,
      List.dedup_nil, List.dedup_cons_of_not_mem, List.find?]

/-- Witness for C5 (amended): the positivity half applied to the concrete
entry left by a single buy. -/
theorem growth_running_map_amended_witness :
    ("A", (⟨1, 10⟩ : Position)) ∈
      (growthFold [⟨"2024-01-01", "A", 1, 10, .buy⟩] []).1 ∧
    (0 : ℚ) < (⟨1, 10⟩ : Position).quantity :=
  ⟨by norm_num [growthFold, growthDates, growthStep, applyGrowthTrade, mapGet, mapSet,
      List.insertionSort, List.orderedInsert, List.dedup_nil,
      List.dedup_cons_of_not_mem, List.find?],
   (growth_running_map_amended [⟨"2024-01-01", "A", 1, 10, .buy⟩] [] []).2
     ("A", ⟨1, 10⟩)
     (by norm_num [growthFold, growthDates, growthStep, applyGrowthTrade, mapGet, mapSet,
        List.insertionSort, List.orderedInsert, List.dedup_nil,
        List.dedup_cons_of_not_mem, List.find?])⟩
